import Mathlib

/-!
# Verification of `evaluation.py` (fxpena/outperformance)

Shallow embedding of the `HedgeFund` pipeline from `src/evaluation.py`:

* dates are modelled as `Int` (an abstract epoch-day count; ISO `YYYY-MM-DD`
  strings sort exactly like the dates they denote, so sorting by the string
  date column coincides with sorting by this integer);
* pandas floats are modelled as `ℚ`, and a cell that may be `NaN` as
  `Option ℚ` (`none` = NaN); pandas `sum` skips NaN, which is modelled by
  `List.filterMap`;
* the numeric parsing performed by `.astype(float)` and the quarter labelling
  performed by `pandas.dt.quarter`/`dt.year` are external library functions;
  they are taken as parameters (`parseNum`, `quarterOf`) of the loader, and a
  concrete decimal parser `parseDec` and a concrete labelling are supplied for
  evaluating the model on explicit inputs.
-/

/-- Floor of a rational: `num / den` with integer Euclidean division, which is
the floor because `den > 0`.  Kept as an explicit function of `num` and `den`
so that concrete runs of the model evaluate. -/
def ratFloor (q : ℚ) : ℤ := q.num / (q.den : ℤ)

/-- Rounding of a rational to the nearest integer, halves to even: the rounding
mode used by numpy/pandas `round`. -/
def roundHalfEven (q : ℚ) : ℤ :=
  if q - ratFloor q < 1/2 then ratFloor q
  else if q - ratFloor q > 1/2 then ratFloor q + 1
  else if ratFloor q % 2 = 0 then ratFloor q else ratFloor q + 1

/-- `DataFrame.round(2)`: round to 2 decimal places. -/
def round2 (q : ℚ) : ℚ := (roundHalfEven (q * 100) : ℚ) / 100

/-- pandas `Series.cumprod`: running products of a list. -/
def cumprod (l : List ℚ) : List ℚ := (l.scanl (· * ·) 1).tail

/-- One column of `HedgeFund.plot_growth` (`src/evaluation.py` lines 170-180):
`growth = self.comparison.fillna(0)`, then `growth / 100 + 1`, `cumprod`,
multiplication by the principal, and a final `round(2)`.  A `none` entry is a
NaN period return, turned into `0` by `fillna(0)`. -/
def growthColumn (principal : ℚ) (rs : List (Option ℚ)) : List ℚ :=
  (cumprod (rs.map (fun r => r.getD 0 / 100 + 1))).map (fun x => round2 (x * principal))

/-- `HedgeFund.plot_growth` applied to the comparison table: every column other
than `quarter`, `sell_date` and `outperformance` (that is, each approach column
and the benchmark column `VOO`) is replaced by its growth projection. -/
def plotGrowth (principal : ℚ) (cols : List (String × List (Option ℚ))) :
    List (String × List ℚ) :=
  cols.map (fun c => (c.1, growthColumn principal c.2))

theorem scanl_mul_get? (l : List ℚ) :
    ∀ (b : ℚ) (i : ℕ), i < l.length + 1 →
      (l.scanl (· * ·) b).get? i = some (b * ((l.take i).prod)) := by
  induction l with
  | nil =>
    intro b i hi
    have h0 : i = 0 := by simpa using Nat.lt_one_iff.mp (by simpa using hi)
    subst h0
    simp [List.scanl]
  | cons x xs ih =>
    intro b i hi
    cases i with
    | zero => simp [List.scanl]
    | succ j =>
      have hj : j < xs.length + 1 := by
        simpa [Nat.succ_lt_succ_iff] using hi
      simp only [List.scanl, List.get?_cons_succ, List.take_succ_cons, List.prod_cons]
      rw [ih (b * x) j hj]
      congr 1
      ring

theorem cumprod_get? (l : List ℚ) (i : ℕ) (hi : i < l.length) :
    (cumprod l).get? i = some ((l.take (i + 1)).prod) := by
  unfold cumprod
  cases l with
  | nil => exact absurd hi (by simp)
  | cons x xs =>
    have hx : (List.scanl (· * ·) 1 (x :: xs)).tail = List.scanl (· * ·) (1 * x) xs := by
      simp [List.scanl]
    rw [hx]
    have hi' : i < xs.length + 1 := by simpa using hi
    rw [scanl_mul_get? xs (1 * x) i hi']
    simp [List.take_succ_cons]

/-- C5: the growth projection treats an undefined (`none`) period return as 0%,
turns each return `r` into the factor `1 + r/100`, and yields the running
product of those factors starting from the principal (rounded to 2 decimals at
the end), for every column the plot selects (each approach and the benchmark);
in particular principal 10000 with period returns `[none, 5%]` gives account
values `[10000.00, 10500.00]`. -/
theorem growth_projection_spec :
    (∀ (P : ℚ) (rs : List (Option ℚ)) (i : ℕ), i < rs.length →
      (growthColumn P rs).get? i =
        some (round2 (P * (((rs.take (i + 1)).map (fun r => 1 + r.getD 0 / 100)).prod)))) ∧
    plotGrowth 10000 [("performance", [none, some 5]), ("VOO", [none, some 5])] =
      [("performance", [10000, 10500]), ("VOO", [10000, 10500])] := by
  constructor
  · intro P rs i hi
    unfold growthColumn
    have hlen : i < (rs.map (fun r => r.getD 0 / 100 + 1)).length := by simpa using hi
    have hfg : (fun r : Option ℚ => r.getD 0 / 100 + 1) =
        (fun r : Option ℚ => 1 + r.getD 0 / 100) := by
      funext r; ring
    rw [List.get?_map, cumprod_get? _ i hlen, Option.map_some', hfg,
      ← List.map_take, mul_comm]
  · norm_num [plotGrowth, growthColumn, cumprod, List.scanl,
      round2, roundHalfEven, ratFloor]

/-- Witness for C5 at a concrete input. -/
theorem growth_projection_spec_witness :
    (growthColumn 10000 [none, some 5]).get? 1 =
      some (round2 (10000 * ((([none, some 5].take 2).map
        (fun r => 1 + (Option.getD r 0) / 100)).prod))) :=
  growth_projection_spec.1 10000 [none, some 5] 1 (by decide)

/-! ## Disclosure loader (`HedgeFund.get_positions`, lines 31-70)

A snapshot is one CSV file: the filing date parsed from its name and its rows.
The loader is parameterised by the numeric parser used by `.astype(float)` and
by the calendar function behind `'q' + dt.quarter + '_' + dt.year`. -/

/-- A raw row of one 13F snapshot file: columns `Sym` (ticker, possibly
missing), `Cl` (security class), `shares` and `value ($000)` as
thousands-separated numeral strings. -/
structure RawRow where
  ticker : Option String
  cls : String
  shares : String
  value : String
deriving DecidableEq

/-- One snapshot file: the filing date encoded in the file name (as an abstract
epoch-day number) and the rows of the file. -/
structure Snapshot where
  fileDate : Int
  rows : List RawRow
deriving DecidableEq

/-- Row of the normalized disclosure table produced by `get_positions`. -/
structure PosRow where
  date : Int
  ticker : String
  cls : String
  sellDate : Int
  shares : ℚ
  change : Option ℚ
  value : ℚ
  quarter : String
deriving DecidableEq

/-- Intermediate row right after tagging/renaming, before numeric parsing. -/
structure Row0 where
  date : Int
  ticker : String
  cls : String
  sharesStr : String
  valueStr : String
deriving DecidableEq

/-- Intermediate row with the `shares` column parsed (line 59). -/
structure Row1 where
  date : Int
  ticker : String
  cls : String
  shares : ℚ
  valueStr : String
deriving DecidableEq

/-- Intermediate row with the diffed-and-filled `change` column
(lines 60-62, before the seed-period rule of line 64 is applied). -/
structure Row2 where
  date : Int
  ticker : String
  cls : String
  shares : ℚ
  change : ℚ
  valueStr : String
deriving DecidableEq

/-- `str.replace(',', '')`: strip thousands separators. -/
def stripCommas (s : String) : String := ⟨s.data.filter (fun c => c ≠ ',')⟩

/-- `pat` occurs as a contiguous run inside `s`. -/
def containsRun (pat : List Char) : List Char → Bool
  | [] => pat.isEmpty
  | c :: t => pat.isPrefixOf (c :: t) || containsRun pat t

/-- The case-insensitive test `class.str.contains('EXP|UNIT')` of line 53. -/
def classExcluded (cls : String) : Bool :=
  containsRun "EXP".data (cls.data.map Char.toUpper) ||
    containsRun "UNIT".data (cls.data.map Char.toUpper)

/-- The sort key of line 51: `sort_values(['date', 'ticker'])`.  The `date`
column still holds the ISO string from the file name there; ISO strings order
exactly like the dates they denote. -/
def row0Le (a b : Row0) : Prop :=
  a.date < b.date ∨ (a.date = b.date ∧ a.ticker ≤ b.ticker)

instance : DecidableRel row0Le := fun a b => by
  unfold row0Le
  infer_instance

instance : IsTotal Row0 row0Le := by
  constructor
  intro a b
  unfold row0Le
  rcases lt_trichotomy a.date b.date with h | h | h
  · exact Or.inl (Or.inl h)
  · rcases le_total a.ticker b.ticker with ht | ht
    · exact Or.inl (Or.inr ⟨h, ht⟩)
    · exact Or.inr (Or.inr ⟨h.symm, ht⟩)
  · exact Or.inr (Or.inl h)

instance : IsTrans Row0 row0Le := by
  constructor
  intro a b c hab hbc
  unfold row0Le at *
  rcases hab with h1 | ⟨h1, t1⟩
  · rcases hbc with h2 | ⟨h2, _⟩
    · exact Or.inl (h1.trans h2)
    · exact Or.inl (h2 ▸ h1)
  · rcases hbc with h2 | ⟨h2, t2⟩
    · exact Or.inl (h1 ▸ h2)
    · exact Or.inr ⟨h1.trans h2, t1.trans t2⟩

/-- Line 59: parse every `shares` cell (`str.replace(',','').astype(float)`);
`none` models the `ValueError` raised on a non-numeric cell. -/
def parseShares (parseNum : String → Option ℚ) : List Row0 → Option (List Row1)
  | [] => some []
  | r :: rs =>
    match parseNum (stripCommas r.sharesStr), parseShares parseNum rs with
    | some v, some t =>
      some ({ date := r.date, ticker := r.ticker, cls := r.cls, shares := v,
              valueStr := r.valueStr } :: t)
    | _, _ => none

/-- Lines 60-62: `groupby('ticker')['shares'].diff()` followed by
`fillna(shares)`.  `acc` carries, for each ticker already seen, its most
recent `shares` value (most recent first). -/
def assignChange (acc : List (String × ℚ)) : List Row1 → List Row2
  | [] => []
  | r :: rs =>
    let change :=
      match acc.find? (fun p => p.1 == r.ticker) with
      | some p => r.shares - p.2
      | none => r.shares
    { date := r.date, ticker := r.ticker, cls := r.cls, shares := r.shares,
      change := change, valueStr := r.valueStr } ::
      assignChange ((r.ticker, r.shares) :: acc) rs

/-- Line 66: parse every `value ($000)` cell. -/
def parseValues (parseNum : String → Option ℚ) : List Row2 → Option (List (Row2 × ℚ))
  | [] => some []
  | r :: rs =>
    match parseNum (stripCommas r.valueStr), parseValues parseNum rs with
    | some v, some t => some ((r, v) :: t)
    | _, _ => none

/-- Lines 56, 64, 66, 69: build the final rows.  `minDate` is
`positions['date'].min()`; a row whose date equals it gets `change = NaN`
(the seed period); `value` is scaled by 1000; `sell_date` is
`date + n_weeks` weeks; `quarter` is the calendar quarter label. -/
def finalizeRow (quarterOf : Int → String) (nWeeks : Int) (minDate : Option Int)
    (r : Row2 × ℚ) : PosRow :=
  { date := r.1.date, ticker := r.1.ticker, cls := r.1.cls,
    sellDate := r.1.date + 7 * nWeeks, shares := r.1.shares,
    change := if some r.1.date = minDate then none else some r.1.change,
    value := r.2 * 1000, quarter := quarterOf r.1.date }

/-- The errors `get_positions` can raise: `pd.concat` of an empty list
(no snapshot files), and `.astype(float)` on a non-numeric cell.  These are
the loader failures the spec groups under `DataIntegrityError`. -/
inductive LoadError
  | noSnapshots
  | unparseableNumeric
deriving DecidableEq

/-- Lines 43-53 of `get_positions`: concatenate the snapshots tagging each row
with its file's filing date, drop rows with a missing ticker, sort by
(date, ticker), and drop rows whose class matches `EXP|UNIT`. -/
def loaderSurvivors (snaps : List Snapshot) : List Row0 :=
  let tagged := snaps.flatMap (fun s => s.rows.map (fun r => (s.fileDate, r)))
  let withTicker := tagged.filterMap (fun p =>
    p.2.ticker.map (fun t =>
      { date := p.1, ticker := t, cls := p.2.cls, sharesStr := p.2.shares,
        valueStr := p.2.value : Row0 }))
  (List.insertionSort row0Le withTicker).filter (fun r => !classExcluded r.cls)

/-- Lines 64 and 66: apply the seed-period rule against the minimum filing
date of the table, scale `value`, attach `sell_date` and `quarter`. -/
def finalizeRows (quarterOf : Int → String) (nWeeks : Int)
    (rows : List (Row2 × ℚ)) : List PosRow :=
  rows.map (finalizeRow quarterOf nWeeks ((rows.map (fun r => r.1.date)).min?))

/-- `HedgeFund.get_positions` (lines 31-70): concatenate the snapshots tagged
with their filing dates, drop rows with no ticker, sort by (date, ticker),
drop expiring-option/unit classes, parse `shares`, derive the per-ticker
share change with the seed rule, parse `value`, and label quarters. -/
def getPositions (parseNum : String → Option ℚ) (quarterOf : Int → String)
    (nWeeks : Int) (snaps : List Snapshot) : Except LoadError (List PosRow) :=
  match snaps with
  | [] => .error .noSnapshots
  | _ :: _ =>
    match parseShares parseNum (loaderSurvivors snaps) with
    | none => .error .unparseableNumeric
    | some ps =>
      match parseValues parseNum (assignChange [] ps) with
      | none => .error .unparseableNumeric
      | some rows => .ok (finalizeRows quarterOf nWeeks rows)

/-- A concrete decimal-numeral parser standing in for Python `float(...)` on
the plain `[-]digits[.digits]` numerals that appear in disclosure files, used
to run the model on explicit inputs. -/
def digitsVal (cs : List Char) : Option ℕ :=
  if cs = [] then none
  else if cs.all (fun c => c.isDigit) then
    some (cs.foldl (fun a c => a * 10 + (c.toNat - 48)) 0)
  else none

/-- Parse an optionally signed decimal numeral. -/
def parseDecCore (cs : List Char) : Option ℚ :=
  match cs.dropWhile (fun c => c ≠ '.') with
  | [] => (digitsVal cs).map (fun n => (n : ℚ))
  | _ :: frac =>
    match digitsVal (cs.takeWhile (fun c => c ≠ '.')), digitsVal frac with
    | some n, some f => some ((n : ℚ) + (f : ℚ) / (10 : ℚ) ^ frac.length)
    | _, _ => none

/-- Python-style `float` parsing of the numerals in the example data. -/
def parseDec (s : String) : Option ℚ :=
  match s.data with
  | '-' :: cs => (parseDecCore cs).map Neg.neg
  | cs => parseDecCore cs

/-- `List.find?` as an `if`, convenient for evaluating concrete runs. -/
theorem find?_cons_eval {α : Type} {p : α → Bool} {a : α} {l : List α} :
    List.find? p (a :: l) = if p a then some a else List.find? p l := by
  by_cases h : p a
  · simp [List.find?, h]
  · simp [List.find?, h]

/-! ### Structure of the loader's output -/

theorem parseValues_map_fst (parseNum : String → Option ℚ) :
    ∀ (l : List Row2) (l' : List (Row2 × ℚ)),
      parseValues parseNum l = some l' → l'.map Prod.fst = l := by
  intro l
  induction l with
  | nil =>
    intro l' h
    simp only [parseValues, Option.some.injEq] at h
    simp [← h]
  | cons r rs ih =>
    intro l' h
    simp only [parseValues] at h
    rcases hv : parseNum (stripCommas r.valueStr) with _ | v <;> rw [hv] at h
    · exact absurd h (by simp)
    · rcases ht : parseValues parseNum rs with _ | t <;> rw [ht] at h
      · exact absurd h (by simp)
      · simp only [Option.some.injEq] at h
        subst h
        simp [ih t ht]

theorem getPositions_ok_decomp (parseNum : String → Option ℚ)
    (quarterOf : Int → String) (nWeeks : Int) (snaps : List Snapshot)
    (pos : List PosRow) (hok : getPositions parseNum quarterOf nWeeks snaps = .ok pos) :
    ∃ ps rows, parseShares parseNum (loaderSurvivors snaps) = some ps ∧
      parseValues parseNum (assignChange [] ps) = some rows ∧
      pos = finalizeRows quarterOf nWeeks rows := by
  unfold getPositions at hok
  split at hok
  · exact absurd hok (by simp)
  · split at hok
    · exact absurd hok (by simp)
    · rename_i ps hps
      split at hok
      · exact absurd hok (by simp)
      · rename_i rows hrows
        refine ⟨ps, rows, hps, hrows, ?_⟩
        injection hok with hok
        exact hok.symm

/-- The change value `assignChange` gives to an output row, in terms of the
rows before it in the output and the accumulator: the diff against the last
previous row of the same ticker, the accumulator's entry if the output prefix
has no such row, and the row's own `shares` otherwise (`fillna(shares)`). -/
theorem assignChange_elem :
    ∀ (ps : List Row1) (acc : List (String × ℚ)) (w₁ : List Row2) (w : Row2)
      (w₂ : List Row2), assignChange acc ps = w₁ ++ w :: w₂ →
      w.change = (((w₁.filter (fun x => x.ticker == w.ticker)).getLast?.map
          (fun p => w.shares - p.shares)).getD
        (((acc.find? (fun q => q.1 == w.ticker)).map
          (fun q => w.shares - q.2)).getD w.shares)) := by
  intro ps
  induction ps with
  | nil =>
    intro acc w₁ w w₂ h
    rw [assignChange] at h
    exact absurd h.symm (by simp)
  | cons x rest ih =>
    intro acc w₁ w w₂ h
    rw [assignChange] at h
    rcases w₁ with _ | ⟨w0, w₁t⟩
    · rw [List.nil_append] at h
      injection h with h1 h2
      subst h1
      rcases hf : acc.find? (fun q => q.1 == x.ticker) with _ | q <;>
        simp [hf]
    · rw [List.cons_append] at h
      injection h with h1 h2
      have hw := ih ((x.ticker, x.shares) :: acc) w₁t w w₂ h2
      have hw0t : w0.ticker = x.ticker := by rw [← h1]
      have hw0s : w0.shares = x.shares := by rw [← h1]
      by_cases htk : (w0.ticker == w.ticker) = true
      · have hxtk : (x.ticker == w.ticker) = true := hw0t ▸ htk
        rw [List.filter_cons, if_pos htk]
        rcases hlast : (w₁t.filter (fun x => x.ticker == w.ticker)).getLast? with _ | p
        · have hnil : w₁t.filter (fun x => x.ticker == w.ticker) = [] :=
            List.getLast?_eq_none_iff.mp hlast
          rw [hw, hlast, hnil, List.getLast?_singleton]
          simp [find?_cons_eval, hxtk, hw0s]
        · have hne : w₁t.filter (fun x => x.ticker == w.ticker) ≠ [] := by
            intro hc
            rw [hc] at hlast
            exact absurd hlast (by simp)
          rcases List.exists_cons_of_ne_nil hne with ⟨c, cs, hcs⟩
          rw [hw, hlast, hcs, List.getLast?_cons_cons, ← hcs, hlast]
          simp
      · have hftk : (w0.ticker == w.ticker) = false := by simpa using htk
        have hxtk : (x.ticker == w.ticker) = false := hw0t ▸ hftk
        rw [List.filter_cons, if_neg (by simp [hftk])]
        rw [hw]
        simp [find?_cons_eval, hxtk]

/-- The dates of the final table are the dates of the parsed rows. -/
theorem finalizeRows_map_date (quarterOf : Int → String) (nWeeks : Int)
    (rows : List (Row2 × ℚ)) :
    (finalizeRows quarterOf nWeeks rows).map (fun x => x.date) =
      rows.map (fun z => z.1.date) := by
  unfold finalizeRows
  rw [List.map_map]
  rfl

/-- Characterization of the `change` column of any successful `get_positions`
run: `NaN` on the earliest filing date, else the diff against the ticker's
last earlier row, else the full share count. -/
theorem getPositions_change_spec (parseNum : String → Option ℚ) (quarterOf : Int → String)
    (nWeeks : Int) (snaps : List Snapshot) (pos l₁ l₂ : List PosRow) (r : PosRow)
    (hok : getPositions parseNum quarterOf nWeeks snaps = .ok pos)
    (hsplit : pos = l₁ ++ r :: l₂) :
    (some r.date = (pos.map (fun x => x.date)).min? → r.change = none) ∧
    (some r.date ≠ (pos.map (fun x => x.date)).min? →
      (∀ p, (l₁.filter (fun x => x.ticker == r.ticker)).getLast? = some p →
        r.change = some (r.shares - p.shares)) ∧
      ((l₁.filter (fun x => x.ticker == r.ticker)).getLast? = none →
        r.change = some r.shares)) := by
  obtain ⟨ps, rows, hps, hrows, hpos⟩ :=
    getPositions_ok_decomp parseNum quarterOf nWeeks snaps pos hok
  have hdates : pos.map (fun x => x.date) = rows.map (fun z => z.1.date) := by
    rw [hpos, finalizeRows_map_date]
  have hmap : rows.map
      (finalizeRow quarterOf nWeeks ((rows.map (fun z => z.1.date)).min?)) =
      l₁ ++ r :: l₂ := by
    rw [← hdates]
    unfold finalizeRows at hpos
    rw [← hdates] at hpos
    rw [← hpos, hsplit]
  rcases List.map_eq_append_iff.mp hmap with ⟨m₁, m₂, hrq, hm₁, hm₂⟩
  rcases List.map_eq_cons_iff.mp hm₂ with ⟨s, m₂t, hm₂eq, hfs, hm₂t⟩
  have hfst : rows.map Prod.fst = assignChange [] ps :=
    parseValues_map_fst parseNum (assignChange [] ps) rows hrows
  have hchain : assignChange [] ps = m₁.map Prod.fst ++ s.1 :: m₂t.map Prod.fst := by
    rw [← hfst, hrq, hm₂eq]
    simp
  have helem := assignChange_elem ps [] (m₁.map Prod.fst) s.1 (m₂t.map Prod.fst) hchain
  rw [List.find?_nil] at helem
  simp only [Option.map_none', Option.getD_none] at helem
  have hrdate : r.date = s.1.date := by rw [← hfs]; rfl
  have hrticker : r.ticker = s.1.ticker := by rw [← hfs]; rfl
  have hrshares : r.shares = s.1.shares := by rw [← hfs]; rfl
  have hrchange : r.change =
      (if some s.1.date = (rows.map (fun z => z.1.date)).min? then none
        else some s.1.change) := by
    rw [← hfs]
    rfl
  have hpred1 : ((fun x : PosRow => x.ticker == r.ticker) ∘
      (finalizeRow quarterOf nWeeks ((rows.map (fun z => z.1.date)).min?))) =
      (fun z : Row2 × ℚ => z.1.ticker == s.1.ticker) := by
    funext z
    simp only [Function.comp]
    rw [hrticker]
    rfl
  have hpred2 : ((fun x : Row2 => x.ticker == s.1.ticker) ∘ Prod.fst) =
      (fun z : Row2 × ℚ => z.1.ticker == s.1.ticker) := by
    funext z
    rfl
  have hl1 : (l₁.filter (fun x => x.ticker == r.ticker)).getLast? =
      ((m₁.filter (fun z => z.1.ticker == s.1.ticker)).getLast?).map
        (finalizeRow quarterOf nWeeks ((rows.map (fun z => z.1.date)).min?)) := by
    rw [← hm₁, List.filter_map, hpred1, List.getLast?_map]
  have hr2 : ((m₁.map Prod.fst).filter (fun x => x.ticker == s.1.ticker)).getLast? =
      ((m₁.filter (fun z => z.1.ticker == s.1.ticker)).getLast?).map Prod.fst := by
    rw [List.filter_map, hpred2, List.getLast?_map]
  constructor
  · intro hmin
    rw [hrchange, if_pos]
    rw [← hrdate, hmin, hdates]
  · intro hmin
    have hcond : ¬ (some s.1.date = (rows.map (fun z => z.1.date)).min?) := by
      rw [← hrdate, ← hdates]
      exact hmin
    rw [hrchange, if_neg hcond]
    constructor
    · intro p hp
      rw [hl1] at hp
      rcases hz : (m₁.filter (fun z => z.1.ticker == s.1.ticker)).getLast? with _ | z
      · rw [hz] at hp
        exact absurd hp (by simp)
      · rw [hz] at hp
        simp only [Option.map_some'] at hp
        rw [hr2, hz] at helem
        simp only [Option.map_some', Option.getD_some] at helem
        have hp2 : finalizeRow quarterOf nWeeks
            ((rows.map (fun z => z.1.date)).min?) z = p := Option.some.inj hp
        have hpshares : p.shares = z.1.shares := by rw [← hp2]; rfl
        rw [helem, hrshares, hpshares]
    · intro hnone
      rw [hl1] at hnone
      rcases hz : (m₁.filter (fun z => z.1.ticker == s.1.ticker)).getLast? with _ | z
      · rw [hr2, hz] at helem
        simp only [Option.map_none', Option.getD_none] at helem
        rw [helem, hrshares]
      · rw [hz] at hnone
        exact absurd hnone (by simp)

/-- C1: for every disclosure row, the derived share-change equals the row's
shares minus the same ticker's shares at that ticker's immediately preceding
appearance; it equals the full share count when this is the ticker's first
appearance; and it is undefined (absent) when the row's filing date equals the
earliest filing date in the whole dataset, regardless of the ticker. -/
theorem share_change_rule (parseNum : String → Option ℚ) (quarterOf : Int → String)
    (nWeeks : Int) (snaps : List Snapshot) (pos l₁ l₂ : List PosRow) (r : PosRow)
    (hok : getPositions parseNum quarterOf nWeeks snaps = .ok pos)
    (hsplit : pos = l₁ ++ r :: l₂) :
    (some r.date = (pos.map (fun x => x.date)).min? → r.change = none) ∧
    (some r.date ≠ (pos.map (fun x => x.date)).min? →
      (∀ p, (l₁.filter (fun x => x.ticker == r.ticker)).getLast? = some p →
        r.change = some (r.shares - p.shares)) ∧
      ((l₁.filter (fun x => x.ticker == r.ticker)).getLast? = none →
        r.change = some r.shares)) :=
  getPositions_change_spec parseNum quarterOf nWeeks snaps pos l₁ l₂ r hok hsplit

/-- C10: when a ticker reappears after skipping one or more filings, its
share-change is the diff against its most recent prior appearance (the last
earlier row of the same ticker, however many filings back), not the full
share count of a first appearance. -/
theorem reappearance_change_rule (parseNum : String → Option ℚ)
    (quarterOf : Int → String) (nWeeks : Int) (snaps : List Snapshot)
    (pos l₁ l₂ : List PosRow) (r p : PosRow)
    (hok : getPositions parseNum quarterOf nWeeks snaps = .ok pos)
    (hsplit : pos = l₁ ++ r :: l₂)
    (hmin : some r.date ≠ (pos.map (fun x => x.date)).min?)
    (hprev : (l₁.filter (fun x => x.ticker == r.ticker)).getLast? = some p) :
    r.change = some (r.shares - p.shares) :=
  ((getPositions_change_spec parseNum quarterOf nWeeks snaps pos l₁ l₂ r
    hok hsplit).2 hmin).1 p hprev

/-! ### A concrete run of the loader

Three filings (epoch days 0, 91, 182).  Ticker `AAA` appears in the first and
third filings but not the second, so its third-filing change must diff across
the gap; `BBB` first appears in the second filing. -/

/-- Quarter labelling of the three demo filing dates. -/
def qlabDemo (d : Int) : String :=
  if d = 0 then "q1_2023" else if d = 91 then "q2_2023" else "q3_2023"

def gapSnaps : List Snapshot :=
  [ { fileDate := 0,
      rows := [ { ticker := some "AAA", cls := "COM", shares := "100", value := "10" } ] },
    { fileDate := 91,
      rows := [ { ticker := some "BBB", cls := "COM", shares := "50", value := "5" } ] },
    { fileDate := 182,
      rows := [ { ticker := some "AAA", cls := "COM", shares := "150", value := "12" },
                { ticker := some "BBB", cls := "COM", shares := "60", value := "6" } ] } ]

def gapPositions : List PosRow :=
  [ { date := 0, ticker := "AAA", cls := "COM", sellDate := 91, shares := 100,
      change := none, value := 10000, quarter := "q1_2023" },
    { date := 91, ticker := "BBB", cls := "COM", sellDate := 182, shares := 50,
      change := some 50, value := 5000, quarter := "q2_2023" },
    { date := 182, ticker := "AAA", cls := "COM", sellDate := 273, shares := 150,
      change := some 50, value := 12000, quarter := "q3_2023" },
    { date := 182, ticker := "BBB", cls := "COM", sellDate := 273, shares := 60,
      change := some 10, value := 6000, quarter := "q3_2023" } ]

theorem gapRun : getPositions parseDec qlabDemo 13 gapSnaps = .ok gapPositions := by
  norm_num +decide [getPositions, gapSnaps, gapPositions, qlabDemo, loaderSurvivors,
    classExcluded, containsRun, List.insertionSort, List.orderedInsert, row0Le,
    List.isPrefixOf, parseShares, parseValues, assignChange, find?_cons_eval,
    finalizeRows, finalizeRow, List.min?, min_def,
    show parseDec (stripCommas "100") = some 100 from by decide,
    show parseDec (stripCommas "150") = some 150 from by decide,
    show parseDec (stripCommas "50") = some 50 from by decide,
    show parseDec (stripCommas "60") = some 60 from by decide,
    show parseDec (stripCommas "10") = some 10 from by decide,
    show parseDec (stripCommas "12") = some 12 from by decide,
    show parseDec (stripCommas "5") = some 5 from by decide,
    show parseDec (stripCommas "6") = some 6 from by decide]

/-- Witness for C1: in the demo run, the seed-date row's change is `NaN`
even though its ticker also appears later. -/
theorem share_change_rule_witness :
    { date := 0, ticker := "AAA", cls := "COM", sellDate := 91, shares := 100,
      change := none, value := 10000, quarter := "q1_2023" : PosRow }.change = none := by
  refine (share_change_rule parseDec qlabDemo 13 gapSnaps gapPositions []
    (gapPositions.drop 1)
    { date := 0, ticker := "AAA", cls := "COM", sellDate := 91, shares := 100,
      change := none, value := 10000, quarter := "q1_2023" } gapRun rfl).1 ?_
  norm_num [gapPositions, List.min?, min_def]

/-- Witness for C10: ticker `AAA`, absent from the middle filing, diffs its
third-filing shares against its first-filing shares (150 − 100), not the full
share count. -/
theorem reappearance_change_rule_witness :
    { date := 182, ticker := "AAA", cls := "COM", sellDate := 273, shares := 150,
      change := some 50, value := 12000, quarter := "q3_2023" : PosRow }.change =
      some ((150 : ℚ) - 100) := by
  refine reappearance_change_rule parseDec qlabDemo 13 gapSnaps gapPositions
    (gapPositions.take 2) (gapPositions.drop 3)
    { date := 182, ticker := "AAA", cls := "COM", sellDate := 273, shares := 150,
      change := some 50, value := 12000, quarter := "q3_2023" }
    { date := 0, ticker := "AAA", cls := "COM", sellDate := 91, shares := 100,
      change := none, value := 10000, quarter := "q1_2023" }
    gapRun rfl ?_ ?_
  · norm_num [gapPositions, List.min?, min_def]
  · rfl

/-! ## Price aligner (`HedgeFund.get_prices`, lines 73-102)

Only the query the aligner sends to the external price source is decided by
the code under test: the ticker list `positions.query("change > 0")['ticker']
.unique()`, the start date `positions['date'].unique()[1]` and the end date
`positions['sell_date'].max()`.  The price data itself comes back from the
opaque external service. -/

/-- pandas `Series.unique()`: the distinct values in order of first
appearance. -/
def uniqueFirst {α : Type} [DecidableEq α] : List α → List α
  | [] => []
  | x :: xs => x :: uniqueFirst (xs.filter (fun y => decide (y ≠ x)))
termination_by l => l.length
decreasing_by
  simp only [List.length_cons]
  exact Nat.lt_succ_of_le (List.length_filter_le _ _)

theorem mem_uniqueFirst {α : Type} [DecidableEq α] :
    ∀ (l : List α) (a : α), a ∈ uniqueFirst l ↔ a ∈ l := by
  intro l
  induction l using uniqueFirst.induct with
  | case1 => simp [uniqueFirst]
  | case2 x xs ih =>
    intro a
    rw [uniqueFirst]
    by_cases hax : a = x
    · subst hax
      simp
    · simp only [List.mem_cons, ih a, List.mem_filter]
      constructor
      · rintro (h | ⟨h, _⟩)
        · exact Or.inl h
        · exact Or.inr h
      · rintro (h | h)
        · exact Or.inl h
        · exact Or.inr ⟨h, by simpa using hax⟩

theorem uniqueFirst_nodup {α : Type} [DecidableEq α] :
    ∀ (l : List α), (uniqueFirst l).Nodup := by
  intro l
  induction l using uniqueFirst.induct with
  | case1 => simp [uniqueFirst]
  | case2 x xs ih =>
    rw [uniqueFirst]
    refine List.Pairwise.cons ?_ ih
    intro a ha
    have := (mem_uniqueFirst _ a).mp ha
    rw [List.mem_filter] at this
    intro hc
    subst hc
    simpa using this.2

theorem uniqueFirst_sorted_lt {α : Type} [DecidableEq α] [LinearOrder α] :
    ∀ (l : List α), l.Sorted (· ≤ ·) → (uniqueFirst l).Sorted (· < ·) := by
  intro l
  induction l using uniqueFirst.induct with
  | case1 =>
    intro _
    simp [uniqueFirst]
  | case2 x xs ih =>
    intro hs
    rw [uniqueFirst]
    rw [List.sorted_cons] at hs
    refine List.Pairwise.cons ?_ (ih (List.Pairwise.sublist (List.filter_sublist xs) hs.2))
    intro b hb
    have hb' := (mem_uniqueFirst _ b).mp hb
    rw [List.mem_filter] at hb'
    have hne : b ≠ x := by simpa using hb'.2
    exact lt_of_le_of_ne (hs.1 b hb'.1) (Ne.symm hne)

/-- Line 78: `positions.query("change > 0")['ticker'].unique()` — the tickers
whose share count increased (`NaN > 0` is false, so seed rows never match). -/
def buyTickers (pos : List PosRow) : List String :=
  uniqueFirst ((pos.filter (fun r =>
    match r.change with
    | some c => decide (0 < c)
    | none => false)).map (fun r => r.ticker))

/-- Line 83: `positions['date'].unique()[1]` — the second entry of the
distinct filing dates in order of first appearance (the table is sorted by
date, so this is the second-earliest distinct filing date). -/
def startDate (pos : List PosRow) : Option Int :=
  (uniqueFirst (pos.map (fun r => r.date))).get? 1

/-- Line 84: `positions['sell_date'].max()`. -/
def endDate (pos : List PosRow) : Option Int :=
  (pos.map (fun r => r.sellDate)).max?

theorem parseShares_map_date (parseNum : String → Option ℚ) :
    ∀ (l : List Row0) (l' : List Row1), parseShares parseNum l = some l' →
      l'.map (fun r => r.date) = l.map (fun r => r.date) := by
  intro l
  induction l with
  | nil =>
    intro l' h
    simp only [parseShares, Option.some.injEq] at h
    simp [← h]
  | cons r rs ih =>
    intro l' h
    simp only [parseShares] at h
    rcases hv : parseNum (stripCommas r.sharesStr) with _ | v <;> rw [hv] at h
    · exact absurd h (by simp)
    · rcases ht : parseShares parseNum rs with _ | t <;> rw [ht] at h
      · exact absurd h (by simp)
      · simp only [Option.some.injEq] at h
        subst h
        simp [ih t ht]

theorem parseShares_map_valueStr (parseNum : String → Option ℚ) :
    ∀ (l : List Row0) (l' : List Row1), parseShares parseNum l = some l' →
      l'.map (fun r => r.valueStr) = l.map (fun r => r.valueStr) := by
  intro l
  induction l with
  | nil =>
    intro l' h
    simp only [parseShares, Option.some.injEq] at h
    simp [← h]
  | cons r rs ih =>
    intro l' h
    simp only [parseShares] at h
    rcases hv : parseNum (stripCommas r.sharesStr) with _ | v <;> rw [hv] at h
    · exact absurd h (by simp)
    · rcases ht : parseShares parseNum rs with _ | t <;> rw [ht] at h
      · exact absurd h (by simp)
      · simp only [Option.some.injEq] at h
        subst h
        simp [ih t ht]

theorem assignChange_map_date :
    ∀ (l : List Row1) (acc : List (String × ℚ)),
      (assignChange acc l).map (fun r => r.date) = l.map (fun r => r.date) := by
  intro l
  induction l with
  | nil => intro acc; rfl
  | cons x rest ih =>
    intro acc
    rw [assignChange]
    simp [ih]

theorem assignChange_map_valueStr :
    ∀ (l : List Row1) (acc : List (String × ℚ)),
      (assignChange acc l).map (fun r => r.valueStr) = l.map (fun r => r.valueStr) := by
  intro l
  induction l with
  | nil => intro acc; rfl
  | cons x rest ih =>
    intro acc
    rw [assignChange]
    simp [ih]

/-- A successful load preserves the (sorted, filtered) dates of the survivors. -/
theorem getPositions_map_date (parseNum : String → Option ℚ)
    (quarterOf : Int → String) (nWeeks : Int) (snaps : List Snapshot)
    (pos : List PosRow) (hok : getPositions parseNum quarterOf nWeeks snaps = .ok pos) :
    pos.map (fun r => r.date) = (loaderSurvivors snaps).map (fun r => r.date) := by
  obtain ⟨ps, rows, hps, hrows, hpos⟩ :=
    getPositions_ok_decomp parseNum quarterOf nWeeks snaps pos hok
  rw [hpos, finalizeRows_map_date]
  have h1 : rows.map (fun z => z.1.date) = (rows.map Prod.fst).map (fun r => r.date) := by
    rw [List.map_map]
    rfl
  rw [h1, parseValues_map_fst parseNum (assignChange [] ps) rows hrows,
    assignChange_map_date ps [], parseShares_map_date parseNum _ ps hps]

theorem loaderSurvivors_dates_sorted (snaps : List Snapshot) :
    ((loaderSurvivors snaps).map (fun r => r.date)).Sorted (· ≤ ·) := by
  unfold loaderSurvivors
  dsimp only
  refine List.pairwise_map.mpr ?_
  refine List.Pairwise.imp ?_
    (List.Pairwise.sublist (List.filter_sublist _) (List.sorted_insertionSort row0Le _))
  intro a b hab
  rcases hab with h | ⟨h, _⟩
  · exact le_of_lt h
  · exact le_of_eq h

theorem getPositions_dates_sorted (parseNum : String → Option ℚ)
    (quarterOf : Int → String) (nWeeks : Int) (snaps : List Snapshot)
    (pos : List PosRow) (hok : getPositions parseNum quarterOf nWeeks snaps = .ok pos) :
    (pos.map (fun r => r.date)).Sorted (· ≤ ·) := by
  rw [getPositions_map_date parseNum quarterOf nWeeks snaps pos hok]
  exact loaderSurvivors_dates_sorted snaps

/-- C7: the price aligner's query covers exactly the tickers with a positive
share-change in some period (the seed period contributes none, its change
being undefined), with query start equal to the second-earliest distinct
filing date and query end equal to the latest evaluation date. -/
theorem price_query_spec (parseNum : String → Option ℚ) (quarterOf : Int → String)
    (nWeeks : Int) (snaps : List Snapshot) (pos : List PosRow)
    (hok : getPositions parseNum quarterOf nWeeks snaps = .ok pos) :
    (∀ t, t ∈ buyTickers pos ↔
      ∃ r ∈ pos, r.ticker = t ∧ ∃ c, r.change = some c ∧ 0 < c) ∧
    (∀ r ∈ pos, some r.date = (pos.map (fun x => x.date)).min? → r.change = none) ∧
    (∀ s, startDate pos = some s →
      s ∈ pos.map (fun x => x.date) ∧
      (∃ m ∈ pos.map (fun x => x.date), m < s) ∧
      (∀ x ∈ pos.map (fun x => x.date), x < s →
        ∀ y ∈ pos.map (fun x => x.date), x ≤ y)) ∧
    ((∃ d₁ ∈ pos.map (fun x => x.date), ∃ d₂ ∈ pos.map (fun x => x.date), d₁ ≠ d₂) →
      ∃ s, startDate pos = some s) ∧
    (∀ e, endDate pos = some e →
      e ∈ pos.map (fun x => x.sellDate) ∧ ∀ d ∈ pos.map (fun x => x.sellDate), d ≤ e) ∧
    (pos ≠ [] → ∃ e, endDate pos = some e) := by
  have hsorted : (pos.map (fun r => r.date)).Sorted (· ≤ ·) :=
    getPositions_dates_sorted parseNum quarterOf nWeeks snaps pos hok
  have husorted : (uniqueFirst (pos.map (fun r => r.date))).Sorted (· < ·) :=
    uniqueFirst_sorted_lt _ hsorted
  refine ⟨?_, ?_, ?_, ?_, ?_, ?_⟩
  · intro t
    unfold buyTickers
    rw [mem_uniqueFirst, List.mem_map]
    constructor
    · rintro ⟨r, hr, hrt⟩
      rw [List.mem_filter] at hr
      refine ⟨r, hr.1, hrt, ?_⟩
      rcases hc : r.change with _ | c
      · rw [hc] at hr
        exact absurd hr.2 (by simp)
      · rw [hc] at hr
        exact ⟨c, rfl, by simpa using hr.2⟩
    · rintro ⟨r, hr, hrt, c, hc, hcpos⟩
      refine ⟨r, ?_, hrt⟩
      rw [List.mem_filter]
      exact ⟨hr, by simp [hc, hcpos]⟩
  · intro r hr hmin
    obtain ⟨l₁, l₂, hsplit⟩ := List.append_of_mem hr
    exact (getPositions_change_spec parseNum quarterOf nWeeks snaps pos l₁ l₂ r
      hok hsplit).1 hmin
  · intro s hs
    unfold startDate at hs
    rcases hu : uniqueFirst (pos.map (fun r => r.date)) with _ | ⟨a, _ | ⟨b, t⟩⟩
    · rw [hu] at hs
      exact absurd hs (by simp)
    · rw [hu] at hs
      exact absurd hs (by simp)
    · rw [hu] at hs
      have hbs : b = s := by simpa using hs
      subst hbs
      rw [hu] at husorted
      rw [List.sorted_cons] at husorted
      have hsort2 := husorted.2
      rw [List.sorted_cons] at hsort2
      have hmem : ∀ x, x ∈ uniqueFirst (pos.map (fun r => r.date)) ↔
          x ∈ pos.map (fun r => r.date) := mem_uniqueFirst _
      refine ⟨?_, ⟨a, ?_, ?_⟩, ?_⟩
      · rw [← hmem, hu]
        simp
      · rw [← hmem, hu]
        simp
      · exact husorted.1 b (by simp)
      · intro x hx hxb
        have hxu : x = a ∨ x = b ∨ x ∈ t := by
          have hm := (hmem x).mpr hx
          rw [hu] at hm
          simpa using hm
        intro y hy
        have hyu : y = a ∨ y = b ∨ y ∈ t := by
          have hm := (hmem y).mpr hy
          rw [hu] at hm
          simpa using hm
        have hab : a < b := husorted.1 b (by simp)
        have hbt : ∀ z ∈ t, b < z := hsort2.1
        rcases hxu with hxa | hxb2 | hxt
        · rcases hyu with hya | hyb | hyt
          · omega
          · omega
          · have := hbt y hyt
            omega
        · omega
        · have := hbt x hxt
          omega
  · rintro ⟨d₁, hd₁, d₂, hd₂, hne⟩
    unfold startDate
    rcases hu : uniqueFirst (pos.map (fun r => r.date)) with _ | ⟨a, _ | ⟨b, t⟩⟩
    · rw [← mem_uniqueFirst, hu] at hd₁
      exact absurd hd₁ (by simp)
    · rw [← mem_uniqueFirst, hu] at hd₁ hd₂
      simp only [List.mem_singleton] at hd₁ hd₂
      exact absurd (hd₁.trans hd₂.symm) hne
    · refine ⟨b, ?_⟩
      rw [hu]
      rfl
  · intro e he
    unfold endDate at he
    exact (@List.max?_eq_some_iff Int e _ _ ⟨fun h1 h2 => le_antisymm h1 h2⟩
      (fun a => le_refl a) (fun a b => max_choice a b)
      (fun a b c => max_le_iff) _).mp he
  · intro hne
    rcases pos with _ | ⟨r, rest⟩
    · exact absurd rfl hne
    · exact ⟨(List.map (fun x : PosRow => x.sellDate) rest).foldl max r.sellDate, rfl⟩

/-- Witness for C7: the demo run has a well-defined query window. -/
theorem price_query_spec_witness :
    (∃ s, startDate gapPositions = some s) ∧ (∃ e, endDate gapPositions = some e) :=
  ⟨(price_query_spec parseDec qlabDemo 13 gapSnaps gapPositions gapRun).2.2.2.1
      ⟨0, by decide, 91, by decide, by decide⟩,
    (price_query_spec parseDec qlabDemo 13 gapSnaps gapPositions gapRun).2.2.2.2.2
      (by decide)⟩

/-! ### Loader failure conditions (C8) -/

theorem parseShares_eq_none_iff (parseNum : String → Option ℚ) :
    ∀ (l : List Row0), parseShares parseNum l = none ↔
      ∃ r ∈ l, parseNum (stripCommas r.sharesStr) = none := by
  intro l
  induction l with
  | nil => simp [parseShares]
  | cons r rs ih =>
    simp only [parseShares]
    rcases hv : parseNum (stripCommas r.sharesStr) with _ | v
    · simp [hv]
    · rcases ht : parseShares parseNum rs with _ | t
      · rcases ih.mp ht with ⟨r', hr', hfail⟩
        simp only [hv, ht, eq_self_iff_true, true_iff]
        exact ⟨r', List.mem_cons_of_mem r hr', hfail⟩
      · have ihn : ∀ r' ∈ rs, ¬ parseNum (stripCommas r'.sharesStr) = none := by
          intro r' hr' hfl
          have hcontra := ih.mpr ⟨r', hr', hfl⟩
          rw [ht] at hcontra
          exact absurd hcontra (by simp)
        simp only [hv, ht]
        constructor
        · intro h
          exact absurd h (by simp)
        · rintro ⟨r', hr', hfail⟩
          rcases List.mem_cons.mp hr' with hr1 | hr2
          · subst hr1
            rw [hv] at hfail
            exact absurd hfail (by simp)
          · exact absurd hfail (ihn r' hr2)

theorem parseValues_eq_none_iff (parseNum : String → Option ℚ) :
    ∀ (l : List Row2), parseValues parseNum l = none ↔
      ∃ r ∈ l, parseNum (stripCommas r.valueStr) = none := by
  intro l
  induction l with
  | nil => simp [parseValues]
  | cons r rs ih =>
    simp only [parseValues]
    rcases hv : parseNum (stripCommas r.valueStr) with _ | v
    · simp [hv]
    · rcases ht : parseValues parseNum rs with _ | t
      · rcases ih.mp ht with ⟨r', hr', hfail⟩
        simp only [hv, ht, eq_self_iff_true, true_iff]
        exact ⟨r', List.mem_cons_of_mem r hr', hfail⟩
      · have ihn : ∀ r' ∈ rs, ¬ parseNum (stripCommas r'.valueStr) = none := by
          intro r' hr' hfl
          have hcontra := ih.mpr ⟨r', hr', hfl⟩
          rw [ht] at hcontra
          exact absurd hcontra (by simp)
        simp only [hv, ht]
        constructor
        · intro h
          exact absurd h (by simp)
        · rintro ⟨r', hr', hfail⟩
          rcases List.mem_cons.mp hr' with hr1 | hr2
          · subst hr1
            rw [hv] at hfail
            exact absurd hfail (by simp)
          · exact absurd hfail (ihn r' hr2)

theorem exists_map_iff {β γ : Type} (L : List β) (f : β → γ) (P : γ → Prop) :
    (∃ v ∈ L.map f, P v) ↔ ∃ r ∈ L, P (f r) := by
  constructor
  · rintro ⟨v, hv, hP⟩
    rcases List.mem_map.mp hv with ⟨r, hr, hfr⟩
    exact ⟨r, hr, hfr ▸ hP⟩
  · rintro ⟨r, hr, hP⟩
    exact ⟨f r, List.mem_map.mpr ⟨r, hr, rfl⟩, hP⟩

/-- A value-string failure among the rows after the change derivation is a
value-string failure among the survivors. -/
theorem valueFail_transfer (parseNum : String → Option ℚ) (snaps : List Snapshot)
    (ps : List Row1) (hps : parseShares parseNum (loaderSurvivors snaps) = some ps) :
    ((∃ r ∈ assignChange [] ps, parseNum (stripCommas r.valueStr) = none) ↔
      ∃ r ∈ loaderSurvivors snaps, parseNum (stripCommas r.valueStr) = none) := by
  rw [← exists_map_iff (assignChange [] ps) (fun r => r.valueStr)
    (fun v => parseNum (stripCommas v) = none)]
  rw [assignChange_map_valueStr ps [],
    parseShares_map_valueStr parseNum (loaderSurvivors snaps) ps hps]
  rw [exists_map_iff (loaderSurvivors snaps) (fun r => r.valueStr)
    (fun v => parseNum (stripCommas v) = none)]

/-- `get_positions` on a nonempty snapshot list, unfolded one step. -/
theorem getPositions_cons (parseNum : String → Option ℚ) (quarterOf : Int → String)
    (nWeeks : Int) (s : Snapshot) (ss : List Snapshot) :
    getPositions parseNum quarterOf nWeeks (s :: ss) =
      (match parseShares parseNum (loaderSurvivors (s :: ss)) with
      | none => .error .unparseableNumeric
      | some ps =>
        match parseValues parseNum (assignChange [] ps) with
        | none => .error .unparseableNumeric
        | some rows => .ok (finalizeRows quarterOf nWeeks rows)) := rfl

/-- C8 (amended): the loader fails exactly when no snapshots are found or when
a surviving row's `shares` or `value` field does not parse as numeric after
separator stripping; it performs no fewer-than-two-distinct-filing-dates
check (a one-date store loads fine and the failure only surfaces later, in
`get_prices`). -/
theorem loader_failure_conditions (parseNum : String → Option ℚ)
    (quarterOf : Int → String) (nWeeks : Int) (snaps : List Snapshot) :
    (∃ e, getPositions parseNum quarterOf nWeeks snaps = .error e) ↔
      (snaps = [] ∨ ∃ r ∈ loaderSurvivors snaps,
        parseNum (stripCommas r.sharesStr) = none ∨
        parseNum (stripCommas r.valueStr) = none) := by
  constructor
  · rintro ⟨e, he⟩
    rcases snaps with _ | ⟨s, ss⟩
    · exact Or.inl rfl
    · rw [getPositions_cons] at he
      split at he
      · rename_i hps
        rcases (parseShares_eq_none_iff parseNum _).mp hps with ⟨r, hr, hfail⟩
        exact Or.inr ⟨r, hr, Or.inl hfail⟩
      · rename_i ps hps
        split at he
        · rename_i hrows
          rcases (parseValues_eq_none_iff parseNum _).mp hrows with ⟨r, hr, hfail⟩
          rcases (valueFail_transfer parseNum (s :: ss) ps hps).mp ⟨r, hr, hfail⟩ with
            ⟨r', hr', hfail'⟩
          exact Or.inr ⟨r', hr', Or.inr hfail'⟩
        · exact absurd he (by simp)
  · rintro (hnil | ⟨r, hr, hfail⟩)
    · subst hnil
      exact ⟨LoadError.noSnapshots, rfl⟩
    · rcases snaps with _ | ⟨s, ss⟩
      · exact ⟨LoadError.noSnapshots, rfl⟩
      · rcases hps : parseShares parseNum (loaderSurvivors (s :: ss)) with _ | ps
        · exact ⟨LoadError.unparseableNumeric, by simp [getPositions, hps]⟩
        · rcases hfail with hfs | hfv
          · exact absurd hps (by
              rw [(parseShares_eq_none_iff parseNum _).mpr ⟨r, hr, hfs⟩]
              simp)
          · have hval : parseValues parseNum (assignChange [] ps) = none :=
              (parseValues_eq_none_iff parseNum _).mpr
                ((valueFail_transfer parseNum (s :: ss) ps hps).mpr ⟨r, hr, hfv⟩)
            exact ⟨LoadError.unparseableNumeric, by simp [getPositions, hps, hval]⟩

/-- C8 counterexample: a store holding a single filing date (fewer than two
distinct dates) does NOT make the loader fail — it returns the table, with the
lone date being the seed. -/
theorem loader_single_date_ok :
    getPositions parseDec qlabDemo 13
      [ { fileDate := 0,
          rows := [ { ticker := some "AAA", cls := "COM",
                      shares := "100", value := "10" } ] } ] =
    .ok [ { date := 0, ticker := "AAA", cls := "COM", sellDate := 91, shares := 100,
            change := none, value := 10000, quarter := "q1_2023" } ] ∧
    startDate
      [ { date := 0, ticker := "AAA", cls := "COM", sellDate := 91, shares := 100,
          change := none, value := 10000, quarter := "q1_2023" } ] = none := by
  constructor
  · norm_num +decide [getPositions, qlabDemo, loaderSurvivors, classExcluded,
      containsRun, List.insertionSort, List.orderedInsert, row0Le, List.isPrefixOf,
      parseShares, parseValues, assignChange, find?_cons_eval, finalizeRows,
      finalizeRow, List.min?, min_def,
      show parseDec (stripCommas "100") = some 100 from by decide,
      show parseDec (stripCommas "10") = some 10 from by decide]
  · simp [startDate, uniqueFirst]

/-! ## Portfolio composer (`HedgeFund.create_portfolio`, lines 105-128)

The melted trailing-return table (lines 89-95) has one row per (as-of date,
ticker); its `price_change` cell is NaN for the first `n_weeks` observations.
`pd.merge_asof(..., by='ticker', direction='nearest')` attaches to each
position row the same-ticker table row whose date is nearest to the row's
`sell_date` (on a distance tie pandas keeps the earlier row). -/

/-- A row of the melted `price_change` table: ticker, as-of date (its
`sell_date` column) and the trailing return, NaN while fewer than `n_weeks`
prior observations exist. -/
structure PriceObs where
  ticker : String
  asOf : Int
  ret : Option ℚ
deriving DecidableEq

/-- The benchmark (`VOO`) trailing-return table of lines 98-102. -/
structure BenchObs where
  sellDate : Int
  voo : Option ℚ
deriving DecidableEq

/-- One comparison step of the nearest-date selection: keep the closer of the
current best and the next row, preferring the earlier one on a distance tie
(pandas `merge_asof` with `direction='nearest'` prefers the backward match on
a tie). -/
def nearestStep {α : Type} (key : α → Int) (d : Int) (best : Option α) (e : α) :
    Option α :=
  match best with
  | none => some e
  | some b =>
    if (key e - d).natAbs < (key b - d).natAbs ∨
        ((key e - d).natAbs = (key b - d).natAbs ∧ key e < key b)
    then some e else some b

/-- Nearest-date selection kernel of `merge_asof(..., direction='nearest')`:
the element whose key is closest to `d`, preferring the earlier key on a
distance tie. -/
def nearestBy {α : Type} (key : α → Int) (d : Int) (l : List α) : Option α :=
  l.foldl (nearestStep key d) none

/-- The `by='ticker'` nearest merge: nearest among the rows of one ticker. -/
def nearestObs (pc : List PriceObs) (t : String) (d : Int) : Option PriceObs :=
  nearestBy (fun e => e.asOf) d (pc.filter (fun e => e.ticker == t))

/-- The benchmark nearest merge of line 149 (no `by` column). -/
def nearestBench (bench : List BenchObs) (d : Int) : Option BenchObs :=
  nearestBy (fun b => b.sellDate) d bench

/-- A row of the merged portfolio table of lines 114-121. -/
structure PortRow where
  date : Int
  ticker : String
  sellDate : Int
  shares : ℚ
  change : Option ℚ
  value : ℚ
  quarter : String
  priceChange : Option ℚ
  weight : Option ℚ
  performance : Option ℚ
deriving DecidableEq

/-- `portfolio.groupby('quarter')['value'].sum()` for one quarter — over ALL
rows of the quarter, including rows that end up with no return observation. -/
def quarterValueSum (pos : List PosRow) (q : String) : ℚ :=
  ((pos.filter (fun r => r.quarter == q)).map (fun r => r.value)).sum

/-- `HedgeFund.create_portfolio` lines 114-121: left merge-asof with the
return table, value-proportional weights per quarter, and the per-row
`performance = price_change * weight` product.  All disclosed values are
nonnegative, so a zero quarter sum means every value of the quarter is zero
and `transform(lambda x: x / x.sum())` is `0.0/0.0 = NaN`: weight `none`. -/
def createPortfolio (pos : List PosRow) (pc : List PriceObs) : List PortRow :=
  pos.map (fun r =>
    let pcg := (nearestObs pc r.ticker r.sellDate).bind (fun e => e.ret)
    let denom := quarterValueSum pos r.quarter
    let w : Option ℚ := if denom = 0 then none else some (r.value / denom)
    { date := r.date, ticker := r.ticker, sellDate := r.sellDate,
      shares := r.shares, change := r.change, value := r.value,
      quarter := r.quarter, priceChange := pcg, weight := w,
      performance :=
        match pcg, w with
        | some p, some wt => some (p * wt)
        | _, _ => none })

/-- One row of a named portfolio's period-return table. -/
structure PerfRow where
  quarter : String
  sellDate : Int
  perf : Option ℚ
deriving DecidableEq

/-- The `groupby(['quarter','sell_date'])` key order (groupby sorts keys). -/
def keyLe (a b : String × Int) : Prop :=
  a.1 < b.1 ∨ (a.1 = b.1 ∧ a.2 ≤ b.2)

instance : DecidableRel keyLe := fun a b => by
  unfold keyLe
  infer_instance

instance : IsTotal (String × Int) keyLe := by
  constructor
  intro a b
  unfold keyLe
  rcases lt_trichotomy a.1 b.1 with h | h | h
  · exact Or.inl (Or.inl h)
  · rcases le_total a.2 b.2 with ht | ht
    · exact Or.inl (Or.inr ⟨h, ht⟩)
    · exact Or.inr (Or.inr ⟨h.symm, ht⟩)
  · exact Or.inr (Or.inl h)

instance : IsTrans (String × Int) keyLe := by
  constructor
  intro a b c hab hbc
  unfold keyLe at *
  rcases hab with h1 | ⟨h1, t1⟩
  · rcases hbc with h2 | ⟨h2, _⟩
    · exact Or.inl (h1.trans h2)
    · exact Or.inl (h2 ▸ h1)
  · rcases hbc with h2 | ⟨h2, t2⟩
    · exact Or.inl (h1 ▸ h2)
    · exact Or.inr ⟨h1.trans h2, t1.trans t2⟩

/-- The final `sort_values('sell_date')` order of line 124. -/
def perfLe (a b : PerfRow) : Prop := a.sellDate ≤ b.sellDate

instance : DecidableRel perfLe := fun a b => by
  unfold perfLe
  infer_instance

instance : IsTotal PerfRow perfLe := ⟨fun a b => le_total a.sellDate b.sellDate⟩

instance : IsTrans PerfRow perfLe :=
  ⟨fun _ _ _ h1 h2 => le_trans h1 h2⟩

/-- Lines 123-124 before the seed-NaN write: group the portfolio by
(quarter, sell_date), sum `performance` per group with NaN skipped
(`filterMap`), and sort by `sell_date`. -/
def perfTableRaw (port : List PortRow) : List PerfRow :=
  let keys := List.insertionSort keyLe
    (uniqueFirst (port.map (fun r => (r.quarter, r.sellDate))))
  List.insertionSort perfLe
    (keys.map (fun k =>
      { quarter := k.1, sellDate := k.2,
        perf := some (((port.filter (fun r =>
          r.quarter == k.1 && r.sellDate == k.2)).filterMap
            (fun r => r.performance)).sum) }))

/-- Line 125: `performance.loc[0, 'performance'] = np.nan` — the first row of
the sorted period table (the earliest period) gets an undefined return. -/
def perfTable (port : List PortRow) : List PerfRow :=
  match perfTableRaw port with
  | [] => []
  | h :: t => { h with perf := none } :: t

theorem nearestStep_foldl {α : Type} (key : α → Int) (d : Int) :
    ∀ (l : List α) (b e : α),
      List.foldl (nearestStep key d) (some b) l = some e →
      (e = b ∨ e ∈ l) ∧
      ((key e - d).natAbs ≤ (key b - d).natAbs ∧
        ((key b - d).natAbs = (key e - d).natAbs → key e ≤ key b)) ∧
      ∀ x ∈ l, (key e - d).natAbs ≤ (key x - d).natAbs ∧
        ((key x - d).natAbs = (key e - d).natAbs → key e ≤ key x) := by
  intro l
  induction l with
  | nil =>
    intro b e h
    simp only [List.foldl_nil, Option.some.injEq] at h
    subst h
    exact ⟨Or.inl rfl, ⟨le_refl _, fun _ => le_refl _⟩, by simp⟩
  | cons c t ih =>
    intro b e h
    rw [List.foldl_cons] at h
    by_cases hc : ((key c - d).natAbs < (key b - d).natAbs ∨
        ((key c - d).natAbs = (key b - d).natAbs ∧ key c < key b))
    · rw [show nearestStep key d (some b) c = some c from by
        simp only [nearestStep, if_pos hc]] at h
      rcases ih c e h with ⟨hmem, hPc, hall⟩
      refine ⟨?_, ?_, ?_⟩
      · rcases hmem with h1 | h1
        · exact Or.inr (by simp [h1])
        · exact Or.inr (List.mem_cons_of_mem c h1)
      · rcases hc with h2 | ⟨h2, h3⟩
        · have h5 := hPc.1
          exact ⟨by omega, fun hx => by omega⟩
        · refine ⟨by have h5 := hPc.1; omega, fun hx => ?_⟩
          have h5 := hPc.1
          have h4 := hPc.2 (by omega)
          omega
      · intro x hx
        rcases List.mem_cons.mp hx with h1 | h1
        · subst h1
          exact hPc
        · exact hall x h1
    · rw [show nearestStep key d (some b) c = some b from by
        simp only [nearestStep, if_neg hc]] at h
      rcases ih b e h with ⟨hmem, hPb, hall⟩
      push_neg at hc
      refine ⟨?_, hPb, ?_⟩
      · rcases hmem with h1 | h1
        · exact Or.inl h1
        · exact Or.inr (List.mem_cons_of_mem c h1)
      · intro x hx
        rcases List.mem_cons.mp hx with h1 | h1
        · subst h1
          have h5 := hPb.1
          have h6 := hc.1
          refine ⟨by omega, fun hxx => ?_⟩
          have h7 := hPb.2 (by omega)
          have h8 := hc.2 (by omega)
          omega
        · exact hall x h1

/-- What `nearestBy` returns is a member at minimal distance, earliest among
the minimizers. -/
theorem nearestBy_some_spec {α : Type} (key : α → Int) (d : Int) (l : List α)
    (e : α) (h : nearestBy key d l = some e) :
    e ∈ l ∧ ∀ x ∈ l, (key e - d).natAbs ≤ (key x - d).natAbs ∧
      ((key x - d).natAbs = (key e - d).natAbs → key e ≤ key x) := by
  rcases l with _ | ⟨c, t⟩
  · exact absurd h (by simp [nearestBy])
  · have h' : List.foldl (nearestStep key d) (some c) t = some e := by
      rw [← h]
      rfl
    rcases nearestStep_foldl key d t c e h' with ⟨hmem, hPc, hall⟩
    refine ⟨?_, ?_⟩
    · rcases hmem with h1 | h1
      · simp [h1]
      · exact List.mem_cons_of_mem c h1
    · intro x hx
      rcases List.mem_cons.mp hx with h1 | h1
      · subst h1
        exact hPc
      · exact hall x h1

theorem nearestStep_foldl_isSome {α : Type} (key : α → Int) (d : Int) :
    ∀ (l : List α) (b : α), ∃ e, List.foldl (nearestStep key d) (some b) l = some e := by
  intro l
  induction l with
  | nil => intro b; exact ⟨b, rfl⟩
  | cons c t ih =>
    intro b
    rw [List.foldl_cons]
    by_cases hc : ((key c - d).natAbs < (key b - d).natAbs ∨
        ((key c - d).natAbs = (key b - d).natAbs ∧ key c < key b))
    · rw [show nearestStep key d (some b) c = some c from by
        simp only [nearestStep, if_pos hc]]
      exact ih c
    · rw [show nearestStep key d (some b) c = some b from by
        simp only [nearestStep, if_neg hc]]
      exact ih b

theorem nearestBy_isSome {α : Type} (key : α → Int) (d : Int) (l : List α)
    (hne : l ≠ []) : ∃ e, nearestBy key d l = some e := by
  rcases l with _ | ⟨c, t⟩
  · exact absurd rfl hne
  · exact nearestStep_foldl_isSome key d t c

theorem createPortfolio_row_shape (pos : List PosRow) (pc : List PriceObs) :
    ∀ r ∈ createPortfolio pos pc,
      r.priceChange = (nearestObs pc r.ticker r.sellDate).bind (fun e => e.ret) ∧
      r.weight = (if quarterValueSum pos r.quarter = 0 then none
        else some (r.value / quarterValueSum pos r.quarter)) ∧
      r.performance = (match r.priceChange, r.weight with
        | some p, some wt => some (p * wt)
        | _, _ => none) := by
  intro r hr
  rcases List.mem_map.mp hr with ⟨s, _, hs⟩
  subst hs
  exact ⟨rfl, rfl, rfl⟩

theorem filterMap_perf (L : List PortRow)
    (hshape : ∀ r ∈ L, r.performance = (match r.priceChange, r.weight with
      | some p, some wt => some (p * wt)
      | _, _ => none)) :
    L.filterMap (fun r => r.performance) =
      (L.filter (fun r => r.priceChange.isSome && r.weight.isSome)).map
        (fun r => r.priceChange.getD 0 * r.weight.getD 0) := by
  induction L with
  | nil => rfl
  | cons r t ih =>
    have hr := hshape r (by simp)
    have ht := ih (fun x hx => hshape x (List.mem_cons_of_mem r hx))
    rcases hp : r.priceChange with _ | p <;> rcases hw : r.weight with _ | w <;>
      rw [hp, hw] at hr <;>
      simp [List.filterMap_cons, List.filter_cons, hr, hp, hw, ht]

/-- C2: each disclosure row is aligned with the same-ticker return-table row
whose as-of date is nearest to the row's evaluation date; rows whose ticker
has no return-table row get no return and are dropped from the period's
weighted sum rather than treated as zero; and each period's return is the sum
of `weight × trailing_return` over exactly the period's rows that have both a
weight and a return. -/
theorem composer_alignment_spec (pos : List PosRow) (pc : List PriceObs) :
    (∀ r ∈ createPortfolio pos pc,
      (∀ e, nearestObs pc r.ticker r.sellDate = some e →
        r.priceChange = e.ret ∧ e ∈ pc ∧ e.ticker = r.ticker ∧
        ∀ x ∈ pc, x.ticker = r.ticker →
          (e.asOf - r.sellDate).natAbs ≤ (x.asOf - r.sellDate).natAbs) ∧
      ((∀ x ∈ pc, x.ticker ≠ r.ticker) → r.priceChange = none) ∧
      (r.priceChange = none → r.performance = none)) ∧
    (∀ x ∈ perfTableRaw (createPortfolio pos pc),
      x.perf = some ((((createPortfolio pos pc).filter (fun r =>
          r.quarter == x.quarter && r.sellDate == x.sellDate)).filter (fun r =>
          r.priceChange.isSome && r.weight.isSome)).map (fun r =>
          r.priceChange.getD 0 * r.weight.getD 0)).sum) := by
  constructor
  · intro r hr
    obtain ⟨hpcg, hwt, hperf⟩ := createPortfolio_row_shape pos pc r hr
    refine ⟨?_, ?_, ?_⟩
    · intro e he
      unfold nearestObs at he
      obtain ⟨hemem, hmin⟩ := nearestBy_some_spec (fun x => x.asOf) r.sellDate
        (pc.filter (fun x => x.ticker == r.ticker)) e he
      rw [List.mem_filter] at hemem
      refine ⟨?_, hemem.1, by simpa using hemem.2, ?_⟩
      · rw [hpcg]
        unfold nearestObs
        rw [he]
        rfl
      · intro x hx hxt
        have hxf : x ∈ pc.filter (fun x => x.ticker == r.ticker) := by
          rw [List.mem_filter]
          exact ⟨hx, by simpa using hxt⟩
        exact (hmin x hxf).1
    · intro hnone
      rw [hpcg]
      unfold nearestObs
      have hfil : pc.filter (fun x => x.ticker == r.ticker) = [] := by
        rw [List.filter_eq_nil_iff]
        intro a ha
        simpa using hnone a ha
      rw [hfil]
      rfl
    · intro hnone
      rw [hperf, hnone]
  · intro x hx
    unfold perfTableRaw at hx
    rw [List.mem_insertionSort] at hx
    rcases List.mem_map.mp hx with ⟨k, _, hkx⟩
    have hq : x.quarter = k.1 := by rw [← hkx]
    have hsd : x.sellDate = k.2 := by rw [← hkx]
    have hperf : x.perf = some ((((createPortfolio pos pc).filter (fun r =>
        r.quarter == k.1 && r.sellDate == k.2)).filterMap
          (fun r => r.performance)).sum) := by
      rw [← hkx]
    rw [hperf, hq, hsd,
      filterMap_perf ((createPortfolio pos pc).filter (fun r =>
        r.quarter == k.1 && r.sellDate == k.2)) (fun r hrf =>
      (createPortfolio_row_shape pos pc r (List.mem_of_mem_filter hrf)).2.2)]

/-- C3: with a nonzero total disclosed value in a period, each row's weight is
its value over the sum of value across ALL of the period's rows (including
rows that later get no return observation), these weights sum to exactly 1
(hence to 1 within 1e-6); a period whose aggregate value is zero has undefined
weights. -/
theorem weight_normalization_spec (pos : List PosRow) (pc : List PriceObs)
    (q : String) :
    (quarterValueSum pos q ≠ 0 →
      (∀ r ∈ createPortfolio pos pc, r.quarter = q →
        r.weight = some (r.value / quarterValueSum pos q)) ∧
      ((((createPortfolio pos pc).filter (fun r => r.quarter == q)).map
          (fun r => r.weight.getD 0)).sum = 1 ∧
        |((((createPortfolio pos pc).filter (fun r => r.quarter == q)).map
          (fun r => r.weight.getD 0)).sum) - 1| ≤ 1/1000000)) ∧
    (quarterValueSum pos q = 0 →
      ∀ r ∈ createPortfolio pos pc, r.quarter = q → r.weight = none) := by
  constructor
  · intro hden
    have hrow : ∀ r ∈ createPortfolio pos pc, r.quarter = q →
        r.weight = some (r.value / quarterValueSum pos q) := by
      intro r hr hq
      obtain ⟨_, hwt, _⟩ := createPortfolio_row_shape pos pc r hr
      rw [hwt, hq, if_neg hden]
    have hone : ((((createPortfolio pos pc).filter
        (fun r => r.quarter == q)).map (fun r => r.weight.getD 0)).sum) = 1 := by
      have hsum : ((((createPortfolio pos pc).filter
          (fun r => r.quarter == q)).map (fun r => r.weight.getD 0)).sum) =
          ((((createPortfolio pos pc).filter (fun r => r.quarter == q)).map
            (fun r => r.value * (quarterValueSum pos q)⁻¹)).sum) := by
        congr 1
        apply List.map_congr_left
        intro r hrf
        have hq : r.quarter = q := by
          have := (List.mem_filter.mp hrf).2
          simpa using this
        rw [hrow r (List.mem_of_mem_filter hrf) hq]
        simp [div_eq_mul_inv]
      rw [hsum, List.sum_map_mul_right]
      have hval : (((createPortfolio pos pc).filter
          (fun r => r.quarter == q)).map (fun r => r.value)).sum =
          quarterValueSum pos q := by
        unfold createPortfolio quarterValueSum
        rw [List.filter_map, List.map_map]
        rfl
      rw [hval, mul_inv_cancel₀ hden]
    refine ⟨hrow, hone, ?_⟩
    rw [hone]
    norm_num
  · intro hden r hr hq
    obtain ⟨_, hwt, _⟩ := createPortfolio_row_shape pos pc r hr
    rw [hwt, hq, if_pos hden]

theorem uniqueFirst_ne_nil {α : Type} [DecidableEq α] (l : List α) (h : l ≠ []) :
    uniqueFirst l ≠ [] := by
  rcases l with _ | ⟨x, xs⟩
  · exact absurd rfl h
  · rw [uniqueFirst]
    simp

theorem insertionSort_ne_nil {α : Type} (r : α → α → Prop) [DecidableRel r]
    (l : List α) (h : l ≠ []) : List.insertionSort r l ≠ [] := by
  intro hc
  have := (List.perm_insertionSort r l).length_eq
  rw [hc] at this
  rcases l with _ | ⟨x, xs⟩
  · exact absurd rfl h
  · simp at this

/-- C6: the first chronological period of every composed portfolio (the row
with the earliest evaluation date of the period table) has an undefined
return, whatever the approach. -/
theorem first_period_return_undefined (port : List PortRow) (hne : port ≠ []) :
    ∃ h t, perfTable port = h :: t ∧ h.perf = none ∧
      ∀ r ∈ perfTable port, h.sellDate ≤ r.sellDate := by
  have hraw : perfTableRaw port ≠ [] := by
    unfold perfTableRaw
    dsimp only
    apply insertionSort_ne_nil
    intro hc
    rw [List.map_eq_nil_iff] at hc
    have := insertionSort_ne_nil keyLe
      (uniqueFirst (port.map (fun r => (r.quarter, r.sellDate))))
      (uniqueFirst_ne_nil _ (by simpa using hne))
    exact this hc
  have hsorted : (perfTableRaw port).Sorted perfLe := by
    unfold perfTableRaw
    dsimp only
    exact List.sorted_insertionSort perfLe _
  rcases hr : perfTableRaw port with _ | ⟨h0, t⟩
  · exact absurd hr hraw
  · refine ⟨{ h0 with perf := none }, t, ?_, rfl, ?_⟩
    · unfold perfTable
      rw [hr]
    · intro r hrm
      unfold perfTable at hrm
      rw [hr] at hrm
      rcases List.mem_cons.mp hrm with h1 | h1
      · subst h1
        exact le_refl _
      · rw [hr, List.sorted_cons] at hsorted
        exact hsorted.1 r h1

/-- A small return table for concrete runs: two observations for `AAA`,
none for `BBB`. -/
def pcDemo : List PriceObs :=
  [ { ticker := "AAA", asOf := 180, ret := some 8 },
    { ticker := "AAA", asOf := 270, ret := some 10 } ]

/-- The portfolio the composer builds from the demo positions and returns:
`AAA` rows aligned with their nearest observation, `BBB` rows with none
(dropped from the sums), value-proportional weights per quarter. -/
def portDemo : List PortRow :=
  [ { date := 0, ticker := "AAA", sellDate := 91, shares := 100, change := none,
      value := 10000, quarter := "q1_2023", priceChange := some 8,
      weight := some 1, performance := some 8 },
    { date := 91, ticker := "BBB", sellDate := 182, shares := 50, change := some 50,
      value := 5000, quarter := "q2_2023", priceChange := none,
      weight := some 1, performance := none },
    { date := 182, ticker := "AAA", sellDate := 273, shares := 150, change := some 50,
      value := 12000, quarter := "q3_2023", priceChange := some 10,
      weight := some (2/3), performance := some (20/3) },
    { date := 182, ticker := "BBB", sellDate := 273, shares := 60, change := some 10,
      value := 6000, quarter := "q3_2023", priceChange := none,
      weight := some (1/3), performance := none } ]

theorem createPortfolio_demo : createPortfolio gapPositions pcDemo = portDemo := by
  norm_num +decide [createPortfolio, gapPositions, pcDemo, portDemo, nearestObs,
    nearestBy, nearestStep, quarterValueSum, List.filter_cons]

/-- The third demo portfolio row. -/
def rowDemoAAA : PortRow :=
  { date := 182, ticker := "AAA", sellDate := 273, shares := 150,
    change := some 50, value := 12000, quarter := "q3_2023",
    priceChange := some 10, weight := some (2/3), performance := some (20/3) }

/-- The demo observation nearest to evaluation date 273. -/
def obsDemo : PriceObs := { ticker := "AAA", asOf := 270, ret := some 10 }

/-- Witness for C2: the third demo row is aligned with the `AAA` observation
at distance 3 (as-of 270 against evaluation date 273), not the one at
distance 93. -/
theorem composer_alignment_spec_witness :
    rowDemoAAA.priceChange = obsDemo.ret := by
  have hmem : rowDemoAAA ∈ createPortfolio gapPositions pcDemo := by
    rw [createPortfolio_demo]
    simp [portDemo, rowDemoAAA]
  have hnear : nearestObs pcDemo rowDemoAAA.ticker rowDemoAAA.sellDate =
      some obsDemo := by
    norm_num +decide [nearestObs, nearestBy, nearestStep, pcDemo,
      List.filter_cons, rowDemoAAA, obsDemo]
  exact (((composer_alignment_spec gapPositions pcDemo).1 _ hmem).1 _ hnear).1

/-- Witness for C3: in the demo's third quarter the weights 2/3 and 1/3 sum
to 1 even though the `BBB` row has no return observation. -/
theorem weight_normalization_spec_witness :
    ((((createPortfolio gapPositions pcDemo).filter
        (fun r => r.quarter == "q3_2023")).map
      (fun r => r.weight.getD 0)).sum) = 1 :=
  (((weight_normalization_spec gapPositions pcDemo "q3_2023").1
    (by norm_num +decide [quarterValueSum, gapPositions, List.filter_cons])).2).1

/-- Witness for C6 on the demo portfolio. -/
theorem first_period_return_undefined_witness :
    ∃ h t, perfTable (createPortfolio gapPositions pcDemo) = h :: t ∧
      h.perf = none ∧
      ∀ r ∈ perfTable (createPortfolio gapPositions pcDemo),
        h.sellDate ≤ r.sellDate :=
  first_period_return_undefined _ (by
    rw [createPortfolio_demo]
    simp [portDemo])

/-! ## Comparator (`HedgeFund.calculate_returns`, lines 131-154)

With exactly one approach the performance table keeps its original
`performance` column name, so line 151's `'performance' in comparison.columns`
holds and the outperformance column is computed; with several approaches the
columns are renamed to the approach names (lines 141-144) and the column is
absent.  Everything is then rounded to 2 decimals and sorted by `sell_date`. -/

/-- A row of the comparison table: evaluation date, one value column per
approach (with its column name), the benchmark column and the optional
outperformance column. -/
structure CompRow where
  sellDate : Int
  cols : List (String × Option ℚ)
  voo : Option ℚ
  outperf : Option ℚ
deriving DecidableEq

/-- `sort_values(by='sell_date')` of line 153. -/
def compLe (a b : CompRow) : Prop := a.sellDate ≤ b.sellDate

instance : DecidableRel compLe := fun a b => by
  unfold compLe
  infer_instance

instance : IsTotal CompRow compLe := ⟨fun a b => le_total a.sellDate b.sellDate⟩

instance : IsTrans CompRow compLe := ⟨fun _ _ _ h1 h2 => le_trans h1 h2⟩

/-- `comparison.round(2)` of line 153 on one row. -/
def roundRow (r : CompRow) : CompRow :=
  { r with cols := r.cols.map (fun c => (c.1, c.2.map round2)),
           voo := r.voo.map round2, outperf := r.outperf.map round2 }

/-- Single-approach branch (lines 146-152) before rounding/sorting: merge the
lone performance table (column still named `performance`) with the benchmark
by nearest date and subtract. -/
def mergeOne (p : List PerfRow) (bench : List BenchObs) : List CompRow :=
  p.map (fun r =>
    let b := (nearestBench bench r.sellDate).bind (fun x => x.voo)
    { sellDate := r.sellDate, cols := [("performance", r.perf)], voo := b,
      outperf :=
        match r.perf, b with
        | some x, some y => some (x - y)
        | _, _ => none })

/-- Multi-approach branch (lines 140-152) before rounding/sorting: outer-join
the renamed per-approach columns on `sell_date` (`pd.concat(axis=1)`; the
tables share the same sorted date index in any run that reaches line 149's
`merge_asof`, which requires sorted keys, so the union of dates is taken in
sorted order), merge with the benchmark, and compute outperformance only if
some column is literally named `performance`. -/
def mergeMulti (perfs : List (String × List PerfRow)) (bench : List BenchObs) :
    List CompRow :=
  let dates := List.insertionSort (fun a b : Int => a ≤ b)
    (uniqueFirst (perfs.flatMap (fun ap => ap.2.map (fun r => r.sellDate))))
  dates.map (fun dd =>
    let cols := perfs.map (fun ap =>
      (ap.1, (ap.2.find? (fun r => r.sellDate == dd)).bind (fun r => r.perf)))
    let b := (nearestBench bench dd).bind (fun x => x.voo)
    { sellDate := dd, cols := cols, voo := b,
      outperf :=
        if (perfs.map Prod.fst).contains "performance" then
          match cols.lookup "performance", b with
          | some (some x), some y => some (x - y)
          | _, _ => none
        else none })

/-- `HedgeFund.calculate_returns`: `self.performance` is the (insertion-
ordered) dict of named approaches; an empty dict never reaches the merge
because `evaluate` composes the default portfolio first. -/
def calculateReturns (perfs : List (String × List PerfRow))
    (bench : List BenchObs) : List CompRow :=
  match perfs with
  | [] => []
  | [(_, p)] => List.insertionSort compLe ((mergeOne p bench).map roundRow)
  | _ => List.insertionSort compLe ((mergeMulti perfs bench).map roundRow)

/-- C4 (amended): with exactly one approach, every comparison row's
outperformance is `round(performance − VOO, 2)` of its unrounded source
values whenever both are defined; with two or more approaches none of which
is itself named `performance` no row has an outperformance value (line 151
keys on the literal column name `performance`, which with several approaches
is present only if an approach carries that name); and the output is rounded
to 2 decimals and sorted ascending by evaluation date. -/
theorem comparator_spec (perfs : List (String × List PerfRow))
    (bench : List BenchObs) :
    (∀ n p, perfs = [(n, p)] →
      ∀ r ∈ calculateReturns perfs bench, ∃ r0 ∈ mergeOne p bench,
        r = roundRow r0 ∧
        ∀ x y, r0.cols = [("performance", some x)] → r0.voo = some y →
          r.outperf = some (round2 (x - y))) ∧
    (2 ≤ perfs.length → "performance" ∉ perfs.map Prod.fst →
      ∀ r ∈ calculateReturns perfs bench, ∃ r0 ∈ mergeMulti perfs bench,
        r = roundRow r0 ∧ r.outperf = none) ∧
    (calculateReturns perfs bench).Sorted compLe := by
  refine ⟨?_, ?_, ?_⟩
  · intro n p hp r hr
    subst hp
    have hcalc : calculateReturns [(n, p)] bench =
        List.insertionSort compLe ((mergeOne p bench).map roundRow) := rfl
    rw [hcalc, List.mem_insertionSort] at hr
    rcases List.mem_map.mp hr with ⟨r0, hr0, hrr⟩
    refine ⟨r0, hr0, hrr.symm, ?_⟩
    intro x y hcols hvoo
    rcases List.mem_map.mp hr0 with ⟨pr, _, hpr⟩
    have hperf : pr.perf = some x := by
      rw [← hpr] at hcols
      simpa using hcols
    have hb : ((nearestBench bench pr.sellDate).bind (fun x => x.voo)) = some y := by
      rw [← hpr] at hvoo
      exact hvoo
    have houtp : r0.outperf = some (x - y) := by
      rw [← hpr]
      dsimp only
      rw [hperf, hb]
    rw [← hrr]
    unfold roundRow
    rw [houtp]
    rfl
  · intro hlen hnotin r hr
    rcases perfs with _ | ⟨a, _ | ⟨b, t⟩⟩
    · simp at hlen
    · simp at hlen
    · have hcalc : calculateReturns (a :: b :: t) bench =
          List.insertionSort compLe ((mergeMulti (a :: b :: t) bench).map roundRow) := rfl
      rw [hcalc, List.mem_insertionSort] at hr
      rcases List.mem_map.mp hr with ⟨r0, hr0, hrr⟩
      refine ⟨r0, hr0, hrr.symm, ?_⟩
      unfold mergeMulti at hr0
      dsimp only at hr0
      rcases List.mem_map.mp hr0 with ⟨dd, _, hdd⟩
      have hcont : (((a :: b :: t).map Prod.fst).contains "performance") = false := by
        simpa using hnotin
      have houtp : r0.outperf = none := by
        rw [← hdd]
        dsimp only
        rw [hcont]
        rfl
      rw [← hrr]
      unfold roundRow
      rw [houtp]
      rfl
  · rcases perfs with _ | ⟨a, _ | ⟨b, t⟩⟩
    · exact List.sorted_nil
    · rcases a with ⟨n, p⟩
      exact List.sorted_insertionSort compLe _
    · exact List.sorted_insertionSort compLe _

/-- A one-period performance table and benchmark for concrete comparator
runs: portfolio 3.00%, benchmark 2.00%. -/
def perfDemo : List PerfRow :=
  [ { quarter := "q2_2023", sellDate := 182, perf := some 3 } ]

def benchDemo : List BenchObs := [ { sellDate := 182, voo := some 2 } ]

def rowCDemo : CompRow :=
  { sellDate := 182, cols := [("performance", some 3)], voo := some 2,
    outperf := some 1 }

/-- Witness for C4: single approach, portfolio 3.00%, benchmark 2.00% —
outperformance 1.00. -/
theorem comparator_spec_witness :
    ∃ r0 ∈ mergeOne perfDemo benchDemo, rowCDemo = roundRow r0 ∧
      ∀ x y, r0.cols = [("performance", some x)] → r0.voo = some y →
        rowCDemo.outperf = some (round2 (x - y)) :=
  (comparator_spec [("simple", perfDemo)] benchDemo).1 "simple" perfDemo rfl
    rowCDemo (by
      norm_num +decide [calculateReturns, mergeOne, roundRow, nearestBench,
        nearestBy, nearestStep, perfDemo, benchDemo, rowCDemo,
        List.insertionSort, List.orderedInsert, compLe,
        round2, roundHalfEven, ratFloor])

/-- C9 (amended): a ticker the price source cannot supply is simply absent
from alignment — its rows get no return and no performance contribution and
the run continues; an unavailable benchmark (an empty benchmark series, the
failure mode of the price source) is also non-fatal: the comparison table is
still produced, with the benchmark and outperformance columns undefined —
the code raises no dedicated error for it. -/
theorem missing_data_handling (pos : List PosRow) (pc : List PriceObs)
    (t : String) (perfs : List (String × List PerfRow)) :
    (∀ r ∈ createPortfolio pos pc, r.ticker = t → (∀ x ∈ pc, x.ticker ≠ t) →
      r.priceChange = none ∧ r.performance = none) ∧
    (∀ r ∈ calculateReturns perfs [], r.voo = none ∧ r.outperf = none) := by
  constructor
  · intro r hr hrt hnone
    obtain ⟨hpcg, _, hperf⟩ := createPortfolio_row_shape pos pc r hr
    have hpc : r.priceChange = none := by
      rw [hpcg]
      unfold nearestObs
      have hfil : pc.filter (fun x => x.ticker == r.ticker) = [] := by
        rw [List.filter_eq_nil_iff]
        intro a ha
        have ht := hnone a ha
        rw [hrt]
        simpa using ht
      rw [hfil]
      rfl
    exact ⟨hpc, by rw [hperf, hpc]⟩
  · intro r hr
    rcases perfs with _ | ⟨a, _ | ⟨b, t'⟩⟩
    · exact absurd hr (by simp [calculateReturns])
    · rcases a with ⟨n, p⟩
      have hcalc : calculateReturns [(n, p)] [] =
          List.insertionSort compLe ((mergeOne p []).map roundRow) := rfl
      rw [hcalc, List.mem_insertionSort] at hr
      rcases List.mem_map.mp hr with ⟨r0, hr0, hrr⟩
      rcases List.mem_map.mp hr0 with ⟨pr, _, hpr⟩
      have hvoo : r0.voo = none := by
        rw [← hpr]
        rfl
      have houtp : r0.outperf = none := by
        rw [← hpr]
        dsimp only
        rcases pr.perf with _ | x <;> rfl
      constructor
      · rw [← hrr]
        unfold roundRow
        rw [hvoo]
        rfl
      · rw [← hrr]
        unfold roundRow
        rw [houtp]
        rfl
    · have hcalc : calculateReturns (a :: b :: t') [] =
          List.insertionSort compLe ((mergeMulti (a :: b :: t') []).map roundRow) := rfl
      rw [hcalc, List.mem_insertionSort] at hr
      rcases List.mem_map.mp hr with ⟨r0, hr0, hrr⟩
      unfold mergeMulti at hr0
      dsimp only at hr0
      rcases List.mem_map.mp hr0 with ⟨dd, _, hdd⟩
      have hvoo : r0.voo = none := by
        rw [← hdd]
        rfl
      have houtp : r0.outperf = none := by
        rw [← hdd]
        dsimp only
        by_cases hc : ((((a :: b :: t')).map Prod.fst).contains "performance") = true
        · rw [if_pos hc]
          rcases hl : ((((a :: b :: t')).map (fun ap =>
              (ap.1, (ap.2.find? (fun r => r.sellDate == dd)).bind
                (fun r => r.perf)))).lookup "performance") with _ | o
          · rw [hl]
          · rw [hl]
            rcases o with _ | x <;> rfl
        · rw [if_neg hc]
      constructor
      · rw [← hrr]
        unfold roundRow
        rw [hvoo]
        rfl
      · rw [← hrr]
        unfold roundRow
        rw [houtp]
        rfl

/-- Witness for C9 at a concrete run with an empty benchmark series. -/
theorem missing_data_handling_witness :
    ({ sellDate := 182, cols := [("performance", some 3)], voo := none,
       outperf := none } : CompRow).voo = none ∧
    ({ sellDate := 182, cols := [("performance", some 3)], voo := none,
       outperf := none } : CompRow).outperf = none :=
  (missing_data_handling gapPositions pcDemo "BBB" [("simple", perfDemo)]).2 _
    (by
      norm_num +decide [calculateReturns, mergeOne, roundRow, nearestBench,
        nearestBy, nearestStep, perfDemo, List.insertionSort,
        List.orderedInsert, compLe, round2, roundHalfEven, ratFloor])

/-- C9 counterexample: with the benchmark series unavailable (empty), the
comparator still returns a comparison table — benchmark and outperformance
undefined — instead of failing with a dedicated error. -/
theorem benchmark_empty_run :
    calculateReturns [("simple", perfDemo)] [] =
      [ { sellDate := 182, cols := [("performance", some 3)], voo := none,
          outperf := none } ] := by
  norm_num +decide [calculateReturns, mergeOne, roundRow, nearestBench,
    nearestBy, nearestStep, perfDemo, List.insertionSort, List.orderedInsert,
    compLe, round2, roundHalfEven, ratFloor]

/-- A second one-period performance table, for an approach named `other`. -/
def perfDemo2 : List PerfRow :=
  [ { quarter := "q2_2023", sellDate := 182, perf := some 5 } ]

/-- C4 counterexample: comparing two approaches simultaneously does NOT
always leave the outperformance column absent — if one of them is named
`performance`, line 151's column test fires and the column is computed. -/
theorem multi_approach_outperformance_present :
    calculateReturns [("performance", perfDemo), ("other", perfDemo2)] benchDemo =
      [ { sellDate := 182,
          cols := [("performance", some 3), ("other", some 5)],
          voo := some 2, outperf := some 1 } ] := by
  norm_num +decide [calculateReturns, mergeMulti, roundRow, nearestBench,
    nearestBy, nearestStep, perfDemo, perfDemo2, benchDemo, uniqueFirst,
    List.insertionSort, List.orderedInsert, compLe, find?_cons_eval,
    List.lookup, round2, roundHalfEven, ratFloor]
